import Mathlib

/-!
Verification development for the `evo-tools/js-logger` core: the call-site
resolver (`src/caller.ts`, provided as `src/unnamed/part_001`), the record /
format-rendering engine (`src/log.ts`) and the logger facade
(`src/unnamed/part_000`).  TypeScript runtime values are embedded shallowly:
machine state (the `Error.prepareStackTrace` hook, the number of stack
captures) is threaded explicitly, fallible code returns `Except`, and JS
object graphs live in an explicit heap so that reference identity and cycles
are expressible.
-/

namespace JsLogger

/-! ## Stack frames and the call-site resolver (`caller.ts`) -/

/-- A raw V8 stack frame as exposed by `NodeJS.CallSite`: every getter may
return `null`, embedded as `none`. -/
structure Frame where
  fileName : Option String
  methodName : Option String
  functionName : Option String
  typeName : Option String
  lineNumber : Option Nat
  columnNumber : Option Nat
deriving DecidableEq

/-- Modelled from the spec: `LOG_LEVELS` is imported by `caller.ts` from the
index module (`'.'`), whose defining file (`record.ts`) is not among the
provided sources.  The spec fixes the level vocabulary to
`debug, info, warn, error, critical, verbose, trace`, matching the `Level`
union type in `src/log.ts`. -/
def LOG_LEVELS : List String :=
  ["debug", "info", "warn", "error", "critical", "verbose", "trace"]

/-- The sentinel internal dispatch method name (`HANDLE_METHOD_NAME`). -/
def HANDLE_METHOD_NAME : String := "_handle"

/-- A resolved call site (`class Caller`): all fields optional, plus an
optional bounded ancestor trace. -/
structure Caller where
  fileName : Option String
  methodName : Option String
  functionName : Option String
  typeName : Option String
  line : Option Nat
  column : Option Nat
  trace : Option (List Caller)

/-- Embeds the JS expression `x || undefined` over `string | null`: both
`null` and the falsy empty string collapse to `undefined`. -/
def orUndefStr : Option String → Option String
  | some "" => none
  | x => x

/-- Embeds the JS expression `x || undefined` over `number | null`: both
`null` and the falsy `0` collapse to `undefined`. -/
def orUndefNat : Option Nat → Option Nat
  | some 0 => none
  | x => x

/-- The `Caller` constructor applied to one frame with no
`parentCallSites` argument: `trace` stays `undefined`. -/
def Caller.ofFrameBase (f : Frame) : Caller :=
  { fileName := orUndefStr f.fileName
    methodName := orUndefStr f.methodName
    functionName := orUndefStr f.functionName
    typeName := orUndefStr f.typeName
    line := orUndefNat f.lineNumber
    column := orUndefNat f.columnNumber
    trace := none }

/-- The `Caller` constructor: optional `parentCallSites` are mapped to
nested `Caller`s, each built without parents (so carrying no nested trace). -/
def Caller.ofFrame (f : Frame) (parents : Option (List Frame)) : Caller :=
  { Caller.ofFrameBase f with trace := parents.map (·.map Caller.ofFrameBase) }

/-- The scan loop of `Caller.create`: starting from absolute index `i`
with the `foundHandle` flag, return the absolute index of the boundary
frame (the first frame after the `_handle` sentinel whose method name is a
log-level name), or `none` when the loop falls through. -/
def findBoundary : List Frame → Nat → Bool → Option Nat
  | [], _, _ => none
  | f :: rest, i, foundHandle =>
    if !foundHandle && f.methodName == some HANDLE_METHOD_NAME then
      findBoundary rest (i + 1) true
    else if foundHandle &&
        (match f.methodName with
         | some m => LOG_LEVELS.contains m
         | none => false) then
      some i
    else
      findBoundary rest (i + 1) foundHandle

/-- The fault raised when `Caller.create` indexes past the end of the frame
list: `callSites[j + 1]` is `undefined` in JS and the constructor's
`callSite.getFileName()` then throws a `TypeError`. -/
inductive CreateFault where
  | undefinedCallSite
deriving DecidableEq

/-- Embeds `Caller.create(level, maxCallersCount)` over a given captured
frame list.  The scan starts at index 1; on finding the boundary at index
`i` it selects `callSites[i + level + 1]` as the call site and
`callSites.slice(i + level + 2, i + level + 2 + maxCallersCount)` as the
ancestors; when the loop falls through, the last assigned `callSite`
(`callSites[len - 1]`, or `callSites[0]` when the loop never ran) is used
with no parents.  Out-of-range indexing yields `undefined` and hence a
`TypeError` inside the constructor, embedded as `Except.error`. -/
def Caller.create (frames : List Frame) (level : Nat) (maxCallersCount : Nat) :
    Except CreateFault Caller :=
  match findBoundary (frames.drop 1) 1 false with
  | some i =>
    match frames[i + level + 1]? with
    | some cs =>
      .ok (Caller.ofFrame cs (some ((frames.drop (i + level + 2)).take maxCallersCount)))
    | none => .error .undefinedCallSite
  | none =>
    match frames.getLast? with
    | some cs => .ok (Caller.ofFrame cs none)
    | none => .error .undefinedCallSite

/-- Length of a `Caller`'s ancestor trace, an absent trace counting as 0. -/
def Caller.traceLen (c : Caller) : Nat := (c.trace.getD []).length

/-! ## Scoped stack capture (`Caller._getCallSites`) -/

/-- The value of the global `Error.prepareStackTrace` hook. -/
inductive Hook where
  | native
  | overridden
  | other (n : Nat)
deriving DecidableEq

/-- Ambient machine state threaded through the stateful embedding: the
current `Error.prepareStackTrace` hook, the history of assignments made to
it, the number of stack captures performed, and the current clock
(`Date.now()`). -/
structure SysState where
  hook : Hook
  hookHistory : List Hook
  captures : Nat
  now : Int

/-- The `wrapCallSite` mapping of the external `source-map-support`
library, modelled as the identity on frame descriptors. -/
def wrapCallSite (f : Frame) : Frame := f

/-- Embeds `Caller._getCallSites`: assign the overriding hook, read
`new Error().stack` under it (one stack capture), assign the module-load
native hook back, then map `wrapCallSite` over the raw frames.  The
overriding hook `(e, s) => s` is total, so the capture between the two
assignments cannot throw and the restoring assignment runs on the only
exit path. -/
def getCallSites (stack : List Frame) (s : SysState) : SysState × List Frame :=
  let s1 : SysState :=
    { s with hook := .overridden, hookHistory := s.hookHistory ++ [.overridden] }
  let raw := stack
  let s2 : SysState :=
    { s1 with
      hook := .native
      hookHistory := s1.hookHistory ++ [.native]
      captures := s1.captures + 1 }
  (s2, raw.map wrapCallSite)

/-- Embeds `Caller.create` as actually invoked: capture the current stack, then
resolve it purely. -/
def Caller.createS (stack : List Frame) (s : SysState) (level maxCallersCount : Nat) :
    SysState × Except CreateFault Caller :=
  let (s2, sites) := getCallSites stack s
  (s2, Caller.create sites level maxCallersCount)

/-! ## JSON values and runtime JS values -/

/-- A JSON value, the codomain of `JSON.stringify` seen structurally. -/
inductive Json where
  | jnull
  | jbool (b : Bool)
  | jnum (n : Int)
  | jstr (s : String)
  | jarr (elems : List Json)
  | jobj (fields : List (String × Json))

/-- A runtime JS value: primitives, a reference into the object heap, or a
(freshly allocated) `Caller` instance.  Numbers are modelled as integers. -/
inductive JsVal where
  | vundefined
  | vnull
  | vbool (b : Bool)
  | vnum (n : Int)
  | vstr (s : String)
  | vref (id : Nat)
  | vcaller (c : Caller)

/-- A heap object: a plain object (insertion-ordered fields) or an array. -/
inductive JsObj where
  | obj (fields : List (String × JsVal))
  | arr (elems : List JsVal)

/-- The object heap: `JsVal.vref id` points at `heap[id]`. -/
abbrev Heap := List JsObj

/-- The fixed circular-reference marker substituted by the `json` format's
replacer. -/
def circularMarker : String := "[circular]"

mutual

/-- JSON encoding of a `Caller` instance: own enumerable properties in
assignment order, properties holding `undefined` omitted, nested trace
entries encoded the same way. -/
def encodeCaller : Caller → Json
  | .mk fl mn fn tn ln cl tr =>
    .jobj
      ((fl.map (fun s => ("fileName", Json.jstr s))).toList ++
       (mn.map (fun s => ("methodName", Json.jstr s))).toList ++
       (fn.map (fun s => ("functionName", Json.jstr s))).toList ++
       (tn.map (fun s => ("typeName", Json.jstr s))).toList ++
       (ln.map (fun n => ("line", Json.jnum n))).toList ++
       (cl.map (fun n => ("column", Json.jnum n))).toList ++
       (match tr with
        | none => []
        | some l => [("trace", Json.jarr (encodeCallerList l))]))

/-- JSON encoding of a list of `Caller`s (the `trace` array). -/
def encodeCallerList : List Caller → List Json
  | [] => []
  | c :: rest => encodeCaller c :: encodeCallerList rest

end

/-! ## The cycle-guarded serializer of the `json` format

`JSON.stringify(msg, replacer)` with the replacer of `Log.messages`: a
`cache` array accumulates every object reference encountered; a repeat is
replaced by `circularMarker` instead of being recursed into.  The cache is
one array for the whole traversal, so it threads through siblings as well
as into children.  The JS recursion carries no fuel; here a fuel argument
is consumed once per descent into a heap object, and
`serFields_total` below proves that `heap.length + 1` fuel always
suffices, which is the termination of the JS recursion.  A `vundefined` value
serializes to `none` (omitted in objects, `null` in arrays).  A fresh
`Caller` instance (and the fresh message root) is pushed into the JS cache
too, but being freshly allocated it can never be encountered a second
time, so the embedding omits it from the cache without observable
difference. -/

/-- Serialize the fields of an object in order with the child serializer
`f`, omitting `undefined` results, threading the cache. -/
def serFieldsGo (f : List Nat → JsVal → Option (Option Json × List Nat)) :
    List Nat → List (String × JsVal) → Option (List (String × Json) × List Nat)
  | cache, [] => some ([], cache)
  | cache, (k, v) :: rest =>
    match f cache v with
    | none => none
    | some (jo, c1) =>
      match serFieldsGo f c1 rest with
      | none => none
      | some (fs, c2) =>
        some ((match jo with | some j => (k, j) :: fs | none => fs), c2)

/-- Serialize array elements in order with the child serializer `f`;
`undefined` becomes `null`. -/
def serElemsGo (f : List Nat → JsVal → Option (Option Json × List Nat)) :
    List Nat → List JsVal → Option (List Json × List Nat)
  | cache, [] => some ([], cache)
  | cache, v :: rest =>
    match f cache v with
    | none => none
    | some (jo, c1) =>
      match serElemsGo f c1 rest with
      | none => none
      | some (js, c2) => some ((jo.getD .jnull) :: js, c2)

/-- Serialize one value under the visited-set `cache`: primitives pass
through, a cached reference yields the marker, an uncached reference is
pushed and its object descended into (consuming one unit of fuel). -/
def serVal (heap : Heap) : Nat → List Nat → JsVal → Option (Option Json × List Nat)
  | 0, cache, v =>
    match v with
    | .vundefined => some (none, cache)
    | .vnull => some (some .jnull, cache)
    | .vbool b => some (some (.jbool b), cache)
    | .vnum n => some (some (.jnum n), cache)
    | .vstr s => some (some (.jstr s), cache)
    | .vcaller c => some (some (encodeCaller c), cache)
    | .vref id =>
      if id ∈ cache then some (some (.jstr circularMarker), cache)
      else
        match heap[id]? with
        | none => some (some .jnull, cache)
        | some _ => none
  | fuel + 1, cache, v =>
    match v with
    | .vundefined => some (none, cache)
    | .vnull => some (some .jnull, cache)
    | .vbool b => some (some (.jbool b), cache)
    | .vnum n => some (some (.jnum n), cache)
    | .vstr s => some (some (.jstr s), cache)
    | .vcaller c => some (some (encodeCaller c), cache)
    | .vref id =>
      if id ∈ cache then some (some (.jstr circularMarker), cache)
      else
        match heap[id]? with
        | none => some (some .jnull, cache)
        | some (.obj fs) =>
          (serFieldsGo (serVal heap fuel) (cache ++ [id]) fs).map
            (fun r => (some (.jobj r.1), r.2))
        | some (.arr es) =>
          (serElemsGo (serVal heap fuel) (cache ++ [id]) es).map
            (fun r => (some (.jarr r.1), r.2))

/-- Serialize an object field list at a given fuel. -/
def serFields (heap : Heap) (fuel : Nat) :
    List Nat → List (String × JsVal) → Option (List (String × Json) × List Nat) :=
  serFieldsGo (serVal heap fuel)

/-- Serialize an array element list at a given fuel. -/
def serElems (heap : Heap) (fuel : Nat) :
    List Nat → List JsVal → Option (List Json × List Nat) :=
  serElemsGo (serVal heap fuel)

/-! ## Rendering a `Json` tree to text -/

/-- Hexadecimal escape for a control character code point. -/
def hexEsc (n : Nat) : String :=
  let ds := Nat.toDigits 16 n
  "\\u" ++ String.mk (List.replicate (4 - ds.length) '0') ++ String.mk ds

/-- Escape one character for a JSON string literal, following
`JSON.stringify`'s quoting rules. -/
def escCh (c : Char) : String :=
  if c = '"' then "\\\""
  else if c = '\\' then "\\\\"
  else if c = '\n' then "\\n"
  else if c = '\t' then "\\t"
  else if c = '\r' then "\\r"
  else if c.toNat = 8 then "\\b"
  else if c.toNat = 12 then "\\f"
  else if c.toNat < 32 then hexEsc c.toNat
  else String.singleton c

/-- Quote a string as a JSON string literal. -/
def jstrQuote (s : String) : String :=
  "\"" ++ String.join (s.data.map escCh) ++ "\""

mutual

/-- Render a `Json` value to its textual form. -/
def Json.render : Json → String
  | .jnull => "null"
  | .jbool b => cond b "true" "false"
  | .jnum n => toString n
  | .jstr s => jstrQuote s
  | .jarr es => "[" ++ Json.renderList es ++ "]"
  | .jobj fs => "\x7b" ++ Json.renderFields fs ++ "\x7d"

/-- Render array elements, comma-separated. -/
def Json.renderList : List Json → String
  | [] => ""
  | [j] => Json.render j
  | j :: rest => Json.render j ++ "," ++ Json.renderList rest

/-- Render object fields, comma-separated. -/
def Json.renderFields : List (String × Json) → String
  | [] => ""
  | [(k, j)] => jstrQuote k ++ ":" ++ Json.render j
  | (k, j) :: rest => jstrQuote k ++ ":" ++ Json.render j ++ "," ++ Json.renderFields rest

end

/-! ## JS string coercion (`String(x)`, as performed by `replace`) -/

mutual

/-- Embeds the JS `String(x)` coercion applied by `String.replace` to the
callback's return value and by template substitution to property values.
Arrays stringify as their elements joined by commas (`null`/`undefined`
elements become empty), plain objects and `Caller` instances as
`[object Object]`.  The fuel covers pathological cyclic arrays, on which
V8's `join` substitutes the empty string. -/
def jsToStr (heap : Heap) : Nat → JsVal → String
  | _, .vundefined => "undefined"
  | _, .vnull => "null"
  | _, .vbool b => cond b "true" "false"
  | _, .vnum n => toString n
  | _, .vstr s => s
  | _, .vcaller _ => "[object Object]"
  | fuel, .vref id =>
    match heap[id]? with
    | none => "undefined"
    | some (.obj _) => "[object Object]"
    | some (.arr es) =>
      match fuel with
      | 0 => ""
      | fuel + 1 => jsJoin heap fuel es
termination_by fuel _ => (fuel, 0)

/-- JS `Array.prototype.join` with comma separator: `null` and `undefined`
become the empty string. -/
def jsJoin (heap : Heap) : Nat → List JsVal → String
  | _, [] => ""
  | fuel, [v] =>
    match v with
    | .vundefined => ""
    | .vnull => ""
    | v => jsToStr heap fuel v
  | fuel, v :: rest =>
    (match v with
     | .vundefined => ""
     | .vnull => ""
     | v => jsToStr heap fuel v) ++ "," ++ jsJoin heap fuel rest
termination_by fuel l => (fuel, l.length + 1)

end

/-! ## Template scanning (`FORMAT_REPLACE_MASK`) -/

/-- True for the identifier start class of `FORMAT_REPLACE_MASK`,
`[a-zA-Z_$]`. -/
def isIdentStartCh (c : Char) : Bool :=
  (97 ≤ c.toNat && c.toNat ≤ 122) || (65 ≤ c.toNat && c.toNat ≤ 90) ||
    c = '_' || c = '$'

/-- True for the identifier continuation class, `[0-9a-zA-Z_$]`. -/
def isIdentContCh (c : Char) : Bool :=
  isIdentStartCh c || (48 ≤ c.toNat && c.toNat ≤ 57)

/-- True for the JS `\s` class (the whitespace characters that occur in
templates). -/
def isWsCh (c : Char) : Bool :=
  c.toNat = 32 || c.toNat = 9 || c.toNat = 10 || c.toNat = 11 ||
    c.toNat = 12 || c.toNat = 13

/-- Drop leading `\s*`. -/
def skipWsL : List Char → List Char
  | [] => []
  | c :: rest => if isWsCh c then skipWsL rest else c :: rest

/-- Parse one identifier of the mask, `[a-zA-Z_$][0-9a-zA-Z_$]+` (note the
`+`: at least two characters). -/
def parseIdentL : List Char → Option (String × List Char)
  | [] => none
  | c :: rest =>
    if isIdentStartCh c then
      let sp := rest.span isIdentContCh
      match sp.1 with
      | [] => none
      | tail => some (String.mk (c :: tail), sp.2)
    else none

/-- Try to match one `\x7b\x7b prop ( | pipe )? \x7d\x7d` placeholder at the
head of the character list, returning the property name, the optional pipe
name and the unconsumed suffix.  Regex backtracking out of the optional
pipe group can never rescue a failed match (after the group has matched,
the next character is `|`, never `\x7d`), so a failed group followed by a
failed close is a failed match, as encoded here. -/
def matchPH : List Char → Option (String × Option String × List Char)
  | '\x7b' :: '\x7b' :: rest =>
    match parseIdentL (skipWsL rest) with
    | none => none
    | some (prop, r2) =>
      let pipeTry : Option (String × List Char) :=
        match skipWsL r2 with
        | '|' :: r4 =>
          match parseIdentL (skipWsL r4) with
          | some (pname, r5) => some (pname, r5)
          | none => none
        | _ => none
      match pipeTry with
      | some (pname, r5) =>
        match skipWsL r5 with
        | '\x7d' :: '\x7d' :: r6 => some (prop, some pname, r6)
        | _ => none
      | none =>
        match skipWsL r2 with
        | '\x7d' :: '\x7d' :: r6 => some (prop, none, r6)
        | _ => none
  | _ => none

/-- One piece of a scanned template: a literal character passed through
verbatim, or a placeholder match. -/
inductive Chunk where
  | lit (c : Char)
  | ph (prop : String) (pipe : Option String)
deriving DecidableEq

/-- Scan a template left to right, as the global-regex `replace` does:
at each position, emit the leftmost placeholder match or pass the
character through.  The fuel (`length + 1` at the top) is ample because
every step consumes at least one character. -/
def scanFmt : Nat → List Char → List Chunk
  | 0, _ => []
  | _, [] => []
  | fuel + 1, c :: rest =>
    match matchPH (c :: rest) with
    | some (prop, pipe, rest') => .ph prop pipe :: scanFmt fuel rest'
    | none => .lit c :: scanFmt fuel rest

/-- Scan a whole template string. -/
def scanTemplate (s : String) : List Chunk :=
  scanFmt (s.length + 1) s.data

/-! ## The record class (`Log` in `src/log.ts`, `Record` at the facade) -/

/-- A value bound in the pipe mapping.  The TS type promises a function,
but `Log.messages` still guards with `typeof pipe !== 'function'`, so a
non-callable binding is representable. -/
inductive PipeVal where
  | pfn (f : JsVal → JsVal)
  | pval (v : JsVal)

/-- The pipe mapping (a JS record, first match wins on lookup). -/
abbrev Pipes := List (String × PipeVal)

/-- The `Message` projection produced by `Log.toMessage`. -/
structure Msg where
  args : JsVal
  caller : JsVal
  date : JsVal
  level : JsVal
  meta : JsVal
  name : JsVal

/-- A format specifier: a template string (including the literal
`"json"`), or a format function receiving the pipes as context and the
message projection as argument. -/
inductive Fmt where
  | fstr (s : String)
  | ffn (f : Pipes → Msg → JsVal)

/-- The typed render failure: `new TypeError('Pipe property "<name>" is
not a function')`, carrying the offending pipe name. -/
inductive RenderErr where
  | missingPipe (name : String)
deriving DecidableEq

/-- One rendered output: a string (from the `json` or template paths) or
the verbatim value returned by a format function. -/
inductive Output where
  | str (s : String)
  | val (v : JsVal)

/-- The record: `class Log` of `src/log.ts`.  `caller` and `date` are
plain stored fields, set once by the constructor (see `mkLog`). -/
structure Log where
  name : Option String
  formats : List Fmt
  pipes : Pipes
  meta : JsVal
  level : String
  args : JsVal
  callerLevel : Nat
  caller : Option Caller
  date : Int

/-- Embeds `Log.toMessage`: the flat structural projection. -/
def Log.toMessage (log : Log) : Msg :=
  { args := log.args
    caller := match log.caller with | some c => .vcaller c | none => .vnull
    date := .vnum log.date
    level := .vstr log.level
    meta := log.meta
    name := match log.name with | some s => .vstr s | none => .vundefined }

/-- The fields of the message literal, in the insertion order of
`toMessage`, as seen by `JSON.stringify`. -/
def msgFields (m : Msg) : List (String × JsVal) :=
  [("args", m.args), ("caller", m.caller), ("date", m.date),
   ("level", m.level), ("meta", m.meta), ("name", m.name)]

/-- The property read `this[propName as keyof Message]` of the template
callback: a dynamic lookup on the record instance.  Data properties are
modelled; reads of method or configuration properties (functions, the
format list, the pipe mapping) are outside the modelled value universe and
collapse to `undefined`, which no claim exercises. -/
def Log.propAt (log : Log) : String → JsVal
  | "args" => log.args
  | "caller" => match log.caller with | some c => .vcaller c | none => .vnull
  | "date" => .vnum log.date
  | "level" => .vstr log.level
  | "meta" => log.meta
  | "name" => match log.name with | some s => .vstr s | none => .vundefined
  | "callerLevel" => .vnum log.callerLevel
  | _ => .vundefined

/-- The static `Log.separator` (default `'<-|->'`). -/
def Log.separator : String := "<-|->"

/-- JS `String.prototype.includes` for a non-empty search string. -/
def strIncludes (s sub : String) : Bool :=
  (s.splitOn sub).length != 1

/-- Modelled from the spec: `resolveSeparators` is imported from
`src/utils.ts`, which is not among the provided sources.  Per the spec
(section 4.4), the text is distributed between separator occurrences
across lines so that no line exceeds the viewport width where possible; a
single segment longer than the width is not broken further.  Embedded as
a greedy packing of separator-delimited segments into width-bounded
lines. -/
def resolveSeparators (s sep : String) (width : Nat) : String :=
  match s.splitOn sep with
  | [] => s
  | first :: rest =>
    let packed := rest.foldl
      (fun (acc : List String × String) seg =>
        if (acc.2 ++ seg).length ≤ width then (acc.1, acc.2 ++ seg)
        else (acc.1 ++ [acc.2], seg))
      ([], first)
    String.intercalate "\n" (packed.1 ++ [packed.2])

/-- Substitute one scanned chunk, as the `replace` callback does: a
literal character passes through; a placeholder reads the property,
optionally applies the pipe (throwing the typed error when the pipe
binding is absent or not callable), and coerces the result to a string. -/
def renderChunk (heap : Heap) (log : Log) : Chunk → Except RenderErr String
  | .lit c => .ok (String.singleton c)
  | .ph prop pipeName =>
    let v := log.propAt prop
    match pipeName with
    | none => .ok (jsToStr heap (heap.length + 1) v)
    | some p =>
      match log.pipes.lookup p with
      | some (.pfn f) => .ok (jsToStr heap (heap.length + 1) (f v))
      | some (.pval _) => .error (.missingPipe p)
      | none => .error (.missingPipe p)

/-- Substitute all chunks in order; the first throw aborts the whole
`replace` (and hence this specifier). -/
def renderChunks (heap : Heap) (log : Log) : List Chunk → Except RenderErr String
  | [] => .ok ""
  | c :: rest =>
    match renderChunk heap log c with
    | .error e => .error e
    | .ok s =>
      match renderChunks heap log rest with
      | .error e => .error e
      | .ok t => .ok (s ++ t)

/-- The template-specifier path of `Log.messages`: substitute the
placeholders, then post-process the configured separator (`width` is
`process.stdout.columns`). -/
def renderTemplate (heap : Heap) (width : Nat) (log : Log) (s : String) :
    Except RenderErr Output :=
  match renderChunks heap log (scanTemplate s) with
  | .error e => .error e
  | .ok str =>
    if Log.separator = "" || !strIncludes str Log.separator then
      .ok (.str str)
    else if width = 0 then
      .ok (.str (String.intercalate "\n" (str.splitOn Log.separator)))
    else
      .ok (.str (resolveSeparators str Log.separator width))

/-- Serialize the message projection as the `json` specifier does:
`JSON.stringify` over the fresh message literal with the cycle-guarding
replacer, starting from an empty cache.  `serFields_total` shows the
fuel `heap.length + 1` never runs out, so the `getD` default is
unreachable. -/
def stringifyMessage (heap : Heap) (log : Log) : Option String :=
  (serFields heap (heap.length + 1) [] (msgFields log.toMessage)).map
    (fun r => Json.render (.jobj r.1))

/-- Render one format specifier, in the branch order of `Log.messages`:
the literal `"json"`, then functions, then template strings. -/
def renderFormat (heap : Heap) (width : Nat) (log : Log) : Fmt → Except RenderErr Output
  | .fstr s =>
    if s = "json" then
      .ok (.str ((stringifyMessage heap log).getD ""))
    else
      renderTemplate heap width log s
  | .ffn f => .ok (.val (f log.pipes log.toMessage))

/-- The body of `this.formats.map(...)` with a throwing callback: outputs
are collected in order and the first throw aborts the whole map. -/
def renderAll (heap : Heap) (width : Nat) (log : Log) :
    List Fmt → Except RenderErr (List Output)
  | [] => .ok []
  | f :: rest =>
    match renderFormat heap width log f with
    | .error e => .error e
    | .ok o =>
      match renderAll heap width log rest with
      | .error e => .error e
      | .ok os => .ok (o :: os)

/-- Embeds `Log.messages()`: one output per configured format, order preserved;
a throw inside `formats.map` aborts the whole call. -/
def Log.messages (heap : Heap) (width : Nat) (log : Log) :
    Except RenderErr (List Output) :=
  renderAll heap width log log.formats

/-- The `Log` constructor: captures the timestamp, then eagerly resolves
the call site through `Caller.create(callerLevel)` (which performs the
stack capture) and stores it in the `caller` field.  A resolver fault
propagates out of the constructor. -/
def mkLog (stack : List Frame) (s : SysState) (name : Option String)
    (formats : List Fmt) (pipes : Pipes) (meta : JsVal) (level : String)
    (args : JsVal) (callerLevel : Nat) : SysState × Except CreateFault Log :=
  let date := s.now
  let (s2, cres) := Caller.createS stack s callerLevel 1
  (s2,
    cres.map (fun c =>
      { name := name, formats := formats, pipes := pipes, meta := meta,
        level := level, args := args, callerLevel := callerLevel,
        caller := some c, date := date }))

/-- Reading the `caller` field of a constructed record: a plain property
read, touching no machine state. -/
def Log.readCaller (log : Log) (s : SysState) : SysState × Option Caller :=
  (s, log.caller)

/-! ## Concrete frame lists used by the call-site claims -/

/-- A sample frame with a given method name and file name. -/
def sampleFrame (mn : Option String) (fl : String) : Frame :=
  { fileName := some fl, methodName := mn, functionName := some "fn",
    typeName := none, lineNumber := some 1, columnNumber := some 2 }

/-- Frames whose boundary sits on the last entry, so that selecting the
frame after it indexes past the end. -/
def c1Frames : List Frame :=
  [sampleFrame none "entry.ts", sampleFrame (some "_handle") "logger.ts",
   sampleFrame (some "info") "logger.ts"]

/-- C1: the claim says that when `skipLevels` walks past the end of the
frame list, `Caller.create` returns a valid empty CallSite rather than an
out-of-range fault.  Evaluating the code on `c1Frames` (sentinel at index
1, boundary at index 2, `skipLevels = 0`, so the selected index 3 is past
the end): `callSites[3]` is `undefined` and the constructor's
`callSite.getFileName()` throws a `TypeError`.  The code faults where the
spec requires a total, bounds-safe result. -/
theorem C1_create_faults_past_end :
    Caller.create c1Frames 0 1 = .error CreateFault.undefinedCallSite := by
  rfl

/-- A frame list that contains no `_handle` sentinel at all. -/
def c2Frames : List Frame :=
  [sampleFrame none "first.ts", sampleFrame none "last.ts"]

/-- C2 counterexample: on a two-frame list with no sentinel, the
fall-back call-site is built from the LAST raw frame (file `last.ts`),
not from the first raw frame (file `first.ts`) as the claim states: the
loop variable holds the last scanned frame when the loop falls through. -/
theorem C2_counterexample :
    Caller.create c2Frames 0 1 = .ok (Caller.ofFrame (sampleFrame none "last.ts") none) ∧
    (Caller.ofFrame (sampleFrame none "last.ts") none).fileName = some "last.ts" ∧
    c2Frames.head?.map Frame.fileName = some (some "first.ts") ∧
    (some "last.ts" : Option String) ≠ some "first.ts" := by
  refine ⟨rfl, rfl, rfl, by decide⟩

/-- C2 (amended): whenever the scan never finds the sentinel/boundary
(`findBoundary` falls through), `Caller.create` falls back to the last
raw frame of a non-empty list as the call-site (which is the first frame
only when the list has exactly one element). -/
theorem C2_fallback_is_last_frame (frames : List Frame) (lvl maxC : Nat) (f : Frame)
    (hnone : findBoundary (frames.drop 1) 1 false = none)
    (hlast : frames.getLast? = some f) :
    Caller.create frames lvl maxC = .ok (Caller.ofFrame f none) := by
  unfold Caller.create
  rw [hnone, hlast]

/-- C2 witness: the amended fall-back theorem applied to `c2Frames`. -/
theorem C2_fallback_witness :
    Caller.create c2Frames 0 1 = .ok (Caller.ofFrame (sampleFrame none "last.ts") none) :=
  C2_fallback_is_last_frame c2Frames 0 1 (sampleFrame none "last.ts") (by rfl) (by rfl)

/-- Frames with sentinel, boundary, one user frame and exactly one
ancestor after it. -/
def c8Frames : List Frame :=
  [sampleFrame none "entry.ts", sampleFrame (some "_handle") "logger.ts",
   sampleFrame (some "info") "logger.ts", sampleFrame none "user.ts",
   sampleFrame none "ancestor.ts"]

/-- C8 counterexample: with `maxAncestors = 2` and exactly one ancestor
available, the resolved trace has length 1 — not length 0 as the claim's
parenthetical ("length 0 when fewer ancestors exist than requested")
asserts: the slice keeps however many ancestors exist, up to the bound. -/
theorem C8_counterexample :
    Caller.create c8Frames 0 2 =
      .ok (Caller.ofFrame (sampleFrame none "user.ts")
            (some [sampleFrame none "ancestor.ts"])) ∧
    (Caller.ofFrame (sampleFrame none "user.ts")
      (some [sampleFrame none "ancestor.ts"])).traceLen = 1 := by
  exact ⟨rfl, rfl⟩

/-- C8 (amended): for every frame list and bound, a successfully resolved
CallSite's trace has length at most `maxAncestors` (it holds exactly the
available ancestors, so it can be positive yet smaller than requested),
and no CallSite inside the trace carries a further nested trace. -/
theorem C8_trace_bounded (frames : List Frame) (lvl maxC : Nat) (c : Caller)
    (h : Caller.create frames lvl maxC = .ok c) :
    c.traceLen ≤ maxC ∧ ∀ t ∈ c.trace.getD [], t.trace = none := by
  unfold Caller.create at h
  cases hb : findBoundary (frames.drop 1) 1 false with
  | some i =>
    rw [hb] at h
    dsimp only at h
    cases hcs : frames[i + lvl + 1]? with
    | some cs =>
      rw [hcs] at h
      dsimp only at h
      injection h with h2
      subst h2
      constructor
      · simp only [Caller.traceLen, Caller.ofFrame, Option.map_some', Option.getD_some,
          List.length_map]
        exact List.length_take_le _ _
      · intro t ht
        simp only [Caller.ofFrame, Option.map_some', Option.getD_some, List.mem_map] at ht
        obtain ⟨p, _, rfl⟩ := ht
        rfl
    | none => rw [hcs] at h; exact Except.noConfusion h
  | none =>
    rw [hb] at h
    dsimp only at h
    cases hl : frames.getLast? with
    | some f =>
      rw [hl] at h
      dsimp only at h
      injection h with h2
      subst h2
      exact ⟨Nat.zero_le _, by intro t ht; simp [Caller.ofFrame, Caller.ofFrameBase] at ht⟩
    | none => rw [hl] at h; exact Except.noConfusion h

/-- C8 witness: the amended bound applied to `c8Frames` with
`maxAncestors = 2`. -/
theorem C8_trace_bounded_witness :
    (Caller.ofFrame (sampleFrame none "user.ts")
        (some [sampleFrame none "ancestor.ts"])).traceLen ≤ 2 ∧
    ∀ t ∈ (Caller.ofFrame (sampleFrame none "user.ts")
        (some [sampleFrame none "ancestor.ts"])).trace.getD [], t.trace = none :=
  C8_trace_bounded c8Frames 0 2 _ (by rfl)

/-- An initial machine state with the native hook installed and no
captures performed. -/
def c3State : SysState := { hook := .native, hookHistory := [], captures := 0, now := 0 }

/-- A one-frame stack for constructing a record. -/
def c3Frames : List Frame := [sampleFrame none "main.ts"]

/-- C3 counterexample: constructing a Record performs the stack capture
and call-site resolution EAGERLY — after `mkLog` the capture counter is 1,
not 0 as the claim ("constructing the Record never performs stack capture;
resolution happens only on the first read") requires. -/
theorem C3_counterexample :
    (mkLog c3Frames c3State none [] [] .vnull "info" .vnull 0).1.captures = 1 ∧
    (mkLog c3Frames c3State none [] [] .vnull "info" .vnull 0).1.captures ≠ 0 := by
  exact ⟨rfl, by decide⟩

/-- C3 (amended): call-site resolution is eager, not lazy: the
constructor performs exactly one stack capture per Record, the resolved
value is stored in the `caller` field, and reading that field performs no
further capture and returns the same stored value on every read. -/
theorem C3_eager_capture_once (stack : List Frame) (s : SysState) (name : Option String)
    (formats : List Fmt) (pipes : Pipes) (meta : JsVal) (level : String)
    (args : JsVal) (callerLevel : Nat) :
    (mkLog stack s name formats pipes meta level args callerLevel).1.captures =
      s.captures + 1 ∧
    ∀ (log : Log) (t : SysState),
      (log.readCaller t).1 = t ∧ (log.readCaller t).2 = log.caller := by
  exact ⟨rfl, fun log t => ⟨rfl, rfl⟩⟩

/-- An initial machine state for the hook-restoration claim. -/
def c9State : SysState := { hook := .native, hookHistory := [], captures := 0, now := 0 }

/-- C9: during one `_getCallSites` capture the `Error.prepareStackTrace`
hook is assigned the override and then immediately the native value, in
that order, on the sole exit path (the overridden hook is total, so no
step between the two assignments can throw); when the hook held the
native value on entry — the only state this module ever leaves it in —
it is restored exactly to its entry value before the capture returns. -/
theorem C9_hook_restored (stack : List Frame) (s : SysState) (h : s.hook = Hook.native) :
    (getCallSites stack s).1.hook = s.hook ∧
    (getCallSites stack s).1.hookHistory =
      s.hookHistory ++ [Hook.overridden, Hook.native] := by
  constructor
  · simp [getCallSites, h]
  · simp [getCallSites]

/-- C9 witness: hook restoration on a concrete capture. -/
theorem C9_hook_restored_witness :
    (getCallSites c3Frames c9State).1.hook = c9State.hook ∧
    (getCallSites c3Frames c9State).1.hookHistory =
      c9State.hookHistory ++ [Hook.overridden, Hook.native] :=
  C9_hook_restored c3Frames c9State (by rfl)

/-! ## Missing pipes (C4, C5) -/

/-- True when looking up `p` in the pipe mapping yields no binding or a
non-callable one — exactly the `typeof pipe !== 'function'` guard. -/
def pipeFailsB (pipes : Pipes) (p : String) : Bool :=
  match pipes.lookup p with
  | some (.pfn _) => false
  | _ => true

/-- Substituting a chunk list containing a placeholder whose pipe lookup
fails ends in the typed missing-pipe error carrying the first such pipe
name encountered. -/
theorem renderChunks_missing (heap : Heap) (log : Log) :
    ∀ (chunks : List Chunk) (prop p : String),
      Chunk.ph prop (some p) ∈ chunks →
      pipeFailsB log.pipes p = true →
      ∃ p2, pipeFailsB log.pipes p2 = true ∧
        (∃ prop2, Chunk.ph prop2 (some p2) ∈ chunks) ∧
        renderChunks heap log chunks = .error (.missingPipe p2) := by
  intro chunks
  induction chunks with
  | nil => intro prop p hmem _; cases hmem
  | cons c rest ih =>
    intro prop p hmem hfail
    cases c with
    | lit ch =>
      have hmem2 : Chunk.ph prop (some p) ∈ rest := by
        cases hmem with
        | tail _ h => exact h
      obtain ⟨p2, h1, ⟨prop2, h2⟩, h3⟩ := ih prop p hmem2 hfail
      exact ⟨p2, h1, ⟨prop2, List.mem_cons_of_mem _ h2⟩,
        by simp only [renderChunks, renderChunk, h3]⟩
    | ph prop2 pipe2 =>
      cases pipe2 with
      | none =>
        have hmem2 : Chunk.ph prop (some p) ∈ rest := by
          cases hmem with
          | tail _ h => exact h
        obtain ⟨p3, h1, ⟨prop3, h2⟩, h3⟩ := ih prop p hmem2 hfail
        exact ⟨p3, h1, ⟨prop3, List.mem_cons_of_mem _ h2⟩,
          by simp only [renderChunks, renderChunk, h3]⟩
      | some q =>
        cases hq : pipeFailsB log.pipes q with
        | true =>
          refine ⟨q, hq, ⟨prop2, List.mem_cons_self _ _⟩, ?_⟩
          simp only [renderChunks, renderChunk]
          cases hl : log.pipes.lookup q with
          | some pv =>
            cases pv with
            | pfn f =>
              unfold pipeFailsB at hq
              rw [hl] at hq
              simp at hq
            | pval v => rfl
          | none => rfl
        | false =>
          have hmem2 : Chunk.ph prop (some p) ∈ rest := by
            cases hmem with
            | head => rw [hfail] at hq; exact Bool.noConfusion hq
            | tail _ h => exact h
          obtain ⟨p3, h1, ⟨prop3, h2⟩, h3⟩ := ih prop p hmem2 hfail
          refine ⟨p3, h1, ⟨prop3, List.mem_cons_of_mem _ h2⟩, ?_⟩
          simp only [renderChunks, renderChunk]
          cases hl : log.pipes.lookup q with
          | some pv =>
            cases pv with
            | pfn f => rw [h3]
            | pval v =>
              unfold pipeFailsB at hq
              rw [hl] at hq
              simp at hq
          | none =>
            unfold pipeFailsB at hq
            rw [hl] at hq
            simp at hq

/-- C4: for every template specifier containing a placeholder whose pipe
name is absent from the pipe mapping or bound to a non-callable value,
rendering that specifier fails with the typed missing-pipe error naming a
missing pipe referenced by the template (the first one encountered). -/
theorem C4_missing_pipe_fails (heap : Heap) (width : Nat) (log : Log)
    (tmpl prop p : String)
    (hmem : Chunk.ph prop (some p) ∈ scanTemplate tmpl)
    (hfail : pipeFailsB log.pipes p = true) :
    ∃ p2, pipeFailsB log.pipes p2 = true ∧
      (∃ prop2, Chunk.ph prop2 (some p2) ∈ scanTemplate tmpl) ∧
      renderFormat heap width log (.fstr tmpl) = .error (.missingPipe p2) := by
  have hne : tmpl ≠ "json" := by
    intro he
    subst he
    have hj : scanTemplate "json" = [.lit 'j', .lit 's', .lit 'o', .lit 'n'] := by rfl
    rw [hj] at hmem
    simp at hmem
  obtain ⟨p2, h1, h2, h3⟩ := renderChunks_missing heap log (scanTemplate tmpl) prop p hmem hfail
  refine ⟨p2, h1, h2, ?_⟩
  simp only [renderFormat, if_neg hne]
  unfold renderTemplate
  rw [h3]

/-- A record whose only pipe is the upper-casing function `up`. -/
def c4Log : Log :=
  { name := none, formats := [], pipes := [], meta := .vnull, level := "info",
    args := .vnull, callerLevel := 0, caller := none, date := 0 }

/-- C4 witness: rendering the template `\x7b\x7blevel | up \x7d\x7d`
against an empty pipe mapping fails with the error naming `up`. -/
theorem C4_missing_pipe_fails_witness :
    ∃ p2, pipeFailsB c4Log.pipes p2 = true ∧
      (∃ prop2, Chunk.ph prop2 (some p2) ∈ scanTemplate "\x7b\x7blevel | up \x7d\x7d") ∧
      renderFormat [] 80 c4Log (.fstr "\x7b\x7blevel | up \x7d\x7d") =
        .error (.missingPipe p2) :=
  C4_missing_pipe_fails [] 80 c4Log "\x7b\x7blevel | up \x7d\x7d" "level" "up"
    (by decide) (by rfl)

/-- A record with two template formats: the first references the missing
pipe `up`, the second is a plain `\x7b\x7blevel\x7d\x7d`. -/
def c5Log : Log :=
  { name := none,
    formats := [.fstr "\x7b\x7blevel|up\x7d\x7d", .fstr "\x7b\x7blevel\x7d\x7d"],
    pipes := [], meta := .vnull, level := "info", args := .vnull,
    callerLevel := 0, caller := none, date := 0 }

/-- C5 counterexample: the claim says a missing-pipe failure in one
specifier leaves the other specifiers' outputs intact, but `messages()`
on `c5Log` — whose second specifier would render to `"info"` — aborts the
whole pass with the error: no output list is produced at all. -/
theorem C5_counterexample :
    Log.messages [] 80 c5Log = .error (.missingPipe "up") ∧
    (Log.messages [] 80 c5Log).isOk = false := by
  exact ⟨rfl, rfl⟩

/-- C5 (amended): a missing-pipe failure in one specifier aborts the
whole render pass: if the specifier at position `i` fails and every
earlier one succeeds, `messages()` propagates that error and returns no
outputs. -/
theorem C5_error_aborts_pass (heap : Heap) (width : Nat) (log : Log)
    (i : Nat) (f : Fmt) (e : RenderErr)
    (hf : log.formats[i]? = some f)
    (herr : renderFormat heap width log f = .error e)
    (hok : ∀ j (g : Fmt), j < i → log.formats[j]? = some g →
      ∃ o, renderFormat heap width log g = .ok o) :
    Log.messages heap width log = .error e := by
  unfold Log.messages
  revert hf hok
  generalize log.formats = fs
  intro hf hok
  induction fs generalizing i with
  | nil => cases i <;> cases hf
  | cons f0 rest ih =>
    cases i with
    | zero =>
      simp only [List.getElem?_cons_zero, Option.some.injEq] at hf
      subst hf
      simp only [renderAll, herr]
    | succ i =>
      obtain ⟨o, ho⟩ := hok 0 f0 (Nat.succ_pos _) (by simp)
      simp only [List.getElem?_cons_succ] at hf
      have hrest : renderAll heap width log rest = .error e := by
        refine ih i hf ?_
        intro j g hj hg
        exact hok (j + 1) g (Nat.succ_lt_succ hj) (by simpa using hg)
      simp only [renderAll, ho, hrest]

/-- C5 witness: the abort theorem applied to `c5Log` (first specifier
fails, there is no earlier one... here the failing specifier is the FIRST
one; the witness uses position 0 so the earlier-success hypothesis is
vacuous). -/
theorem C5_error_aborts_pass_witness :
    Log.messages [] 80 c5Log = .error (.missingPipe "up") :=
  C5_error_aborts_pass [] 80 c5Log 0 (.fstr "\x7b\x7blevel|up\x7d\x7d")
    (.missingPipe "up") (by rfl) (by rfl)
    (by intro j g hj _; cases hj)

/-! ## Serializer invariants: cache monotonicity and fuel sufficiency -/

/-- Field serialization only grows the cache, provided the child
serializer does. -/
theorem serFieldsGo_mono (f : List Nat → JsVal → Option (Option Json × List Nat))
    (hf : ∀ cache v r, f cache v = some r → ∀ x, x ∈ cache → x ∈ r.2) :
    ∀ cache l r, serFieldsGo f cache l = some r → ∀ x, x ∈ cache → x ∈ r.2 := by
  intro cache l
  induction l generalizing cache with
  | nil =>
    intro r h x hx
    simp only [serFieldsGo] at h
    cases h
    exact hx
  | cons kv rest ih =>
    intro r h x hx
    obtain ⟨k, v⟩ := kv
    simp only [serFieldsGo] at h
    cases hv : f cache v with
    | none => rw [hv] at h; exact Option.noConfusion h
    | some a =>
      rw [hv] at h
      obtain ⟨jo, c1⟩ := a
      dsimp only at h
      cases hr : serFieldsGo f c1 rest with
      | none => rw [hr] at h; exact Option.noConfusion h
      | some b =>
        rw [hr] at h
        obtain ⟨fs, c2⟩ := b
        dsimp only at h
        cases h
        exact ih c1 (fs, c2) hr x (hf cache v (jo, c1) hv x hx)

/-- Element serialization only grows the cache, provided the child
serializer does. -/
theorem serElemsGo_mono (f : List Nat → JsVal → Option (Option Json × List Nat))
    (hf : ∀ cache v r, f cache v = some r → ∀ x, x ∈ cache → x ∈ r.2) :
    ∀ cache l r, serElemsGo f cache l = some r → ∀ x, x ∈ cache → x ∈ r.2 := by
  intro cache l
  induction l generalizing cache with
  | nil =>
    intro r h x hx
    simp only [serElemsGo] at h
    cases h
    exact hx
  | cons v rest ih =>
    intro r h x hx
    simp only [serElemsGo] at h
    cases hv : f cache v with
    | none => rw [hv] at h; exact Option.noConfusion h
    | some a =>
      rw [hv] at h
      obtain ⟨jo, c1⟩ := a
      dsimp only at h
      cases hr : serElemsGo f c1 rest with
      | none => rw [hr] at h; exact Option.noConfusion h
      | some b =>
        rw [hr] at h
        obtain ⟨js, c2⟩ := b
        dsimp only at h
        cases h
        exact ih c1 (js, c2) hr x (hf cache v (jo, c1) hv x hx)

/-- The value serializer's cache only grows. -/
theorem serValMono (heap : Heap) : ∀ (fuel : Nat) (cache : List Nat) (v : JsVal) r,
    serVal heap fuel cache v = some r → ∀ x, x ∈ cache → x ∈ r.2 := by
  intro fuel
  induction fuel with
  | zero =>
    intro cache v r h x hx
    cases v <;> simp only [serVal] at h
    case vundefined => cases h; exact hx
    case vnull => cases h; exact hx
    case vbool b => cases h; exact hx
    case vnum n => cases h; exact hx
    case vstr s => cases h; exact hx
    case vcaller c => cases h; exact hx
    case vref id =>
      by_cases hid : id ∈ cache
      · rw [if_pos hid] at h; cases h; exact hx
      · rw [if_neg hid] at h
        cases hobj : heap[id]? with
        | none => rw [hobj] at h; cases h; exact hx
        | some o => rw [hobj] at h; exact Option.noConfusion h
  | succ fuel ih =>
    intro cache v r h x hx
    cases v <;> simp only [serVal] at h
    case vundefined => cases h; exact hx
    case vnull => cases h; exact hx
    case vbool b => cases h; exact hx
    case vnum n => cases h; exact hx
    case vstr s => cases h; exact hx
    case vcaller c => cases h; exact hx
    case vref id =>
      by_cases hid : id ∈ cache
      · rw [if_pos hid] at h; cases h; exact hx
      · rw [if_neg hid] at h
        cases hobj : heap[id]? with
        | none => rw [hobj] at h; cases h; exact hx
        | some o =>
          rw [hobj] at h
          cases o with
          | obj fs =>
            rcases Option.map_eq_some'.mp h with ⟨a, ha, hfr⟩
            subst hfr
            exact serFieldsGo_mono (serVal heap fuel) ih (cache ++ [id]) fs a ha x
              (List.mem_append_left _ hx)
          | arr es =>
            rcases Option.map_eq_some'.mp h with ⟨a, ha, hfr⟩
            subst hfr
            exact serElemsGo_mono (serVal heap fuel) ih (cache ++ [id]) es a ha x
              (List.mem_append_left _ hx)


/-! ## Fuel sufficiency: the JS recursion terminates on every heap -/

/-- The number of heap ids not yet in the cache: the serializer's
termination measure. -/
def unvisited (heap : Heap) (cache : List Nat) : Nat :=
  ((List.range heap.length).filter (fun i => decide (i ∉ cache))).length

/-- Filtering with a weaker predicate keeps at least as many elements. -/
theorem length_filter_le_filter {α : Type} (l : List α) (p q : α → Bool)
    (h : ∀ a, p a = true → q a = true) :
    (l.filter p).length ≤ (l.filter q).length := by
  induction l with
  | nil => simp
  | cons a t ih =>
    simp only [List.filter_cons]
    cases hp : p a with
    | true =>
      rw [h a hp]
      simpa using ih
    | false =>
      cases hq : q a with
      | true =>
        simp only [List.length_cons]
        exact Nat.le_succ_of_le ih
      | false => exact ih

/-- A larger cache leaves fewer unvisited ids. -/
theorem unvisited_le_of_subset (heap : Heap) (c1 c2 : List Nat)
    (h : ∀ x, x ∈ c1 → x ∈ c2) : unvisited heap c2 ≤ unvisited heap c1 := by
  apply length_filter_le_filter
  intro a ha
  simp only [decide_eq_true_eq] at ha ⊢
  intro hc1
  exact ha (h a hc1)

/-- Removing a present element by filtering strictly shrinks a list. -/
theorem length_filter_ne_lt (a : Nat) : ∀ l : List Nat, a ∈ l →
    (l.filter (fun x => decide (x ≠ a))).length < l.length := by
  intro l
  induction l with
  | nil => intro h; cases h
  | cons b t ih =>
    intro hmem
    simp only [List.filter_cons]
    by_cases hb : b = a
    · subst hb
      rw [if_neg (by simp)]
      simp only [List.length_cons]
      exact Nat.lt_succ_of_le (List.length_filter_le _ _)
    · have ha : a ∈ t := by
        cases hmem with
        | head => exact absurd rfl hb
        | tail _ h2 => exact h2
      rw [if_pos (by simp [hb])]
      simp only [List.length_cons]
      exact Nat.succ_lt_succ (ih ha)

/-- Pushing a fresh valid id onto the cache strictly decreases the
unvisited count. -/
theorem unvisited_append_lt (heap : Heap) (cache : List Nat) (id : Nat)
    (hlen : id < heap.length) (hid : id ∉ cache) :
    unvisited heap (cache ++ [id]) < unvisited heap cache := by
  unfold unvisited
  have hcongr : (List.range heap.length).filter (fun i => decide (i ∉ cache ++ [id])) =
      ((List.range heap.length).filter (fun i => decide (i ∉ cache))).filter
        (fun i => decide (i ≠ id)) := by
    rw [List.filter_filter]
    apply List.filter_congr
    intro a _
    simp only [List.mem_append, List.mem_singleton, not_or, decide_eq_true_eq, ne_eq]
    cases hc : decide (a ∉ cache) with
    | true =>
      simp only [decide_eq_true_eq] at hc
      simp [hc, and_comm]
    | false =>
      simp only [decide_eq_false_iff_not, not_not] at hc
      simp [hc]
  rw [hcongr]
  apply length_filter_ne_lt
  rw [List.mem_filter]
  exact ⟨List.mem_range.mpr hlen, by simp [hid]⟩

/-- The unvisited count never exceeds the heap size. -/
theorem unvisited_le_length (heap : Heap) (cache : List Nat) :
    unvisited heap cache ≤ heap.length := by
  calc unvisited heap cache ≤ (List.range heap.length).length :=
        List.length_filter_le _ _
    _ = heap.length := List.length_range _

/-- Field serialization succeeds whenever the child serializer succeeds
below the bound and only grows the cache. -/
theorem serFieldsGo_suff (heap : Heap) (n : Nat)
    (f : List Nat → JsVal → Option (Option Json × List Nat))
    (hmono : ∀ cache v r, f cache v = some r → ∀ x, x ∈ cache → x ∈ r.2)
    (hsuf : ∀ cache v, unvisited heap cache < n → ∃ r, f cache v = some r) :
    ∀ cache l, unvisited heap cache < n → ∃ r, serFieldsGo f cache l = some r := by
  intro cache l
  induction l generalizing cache with
  | nil => intro _; exact ⟨([], cache), by simp only [serFieldsGo]⟩
  | cons kv rest ih =>
    intro hlt
    obtain ⟨k, v⟩ := kv
    obtain ⟨a, ha⟩ := hsuf cache v hlt
    obtain ⟨jo, c1⟩ := a
    have hle : unvisited heap c1 ≤ unvisited heap cache :=
      unvisited_le_of_subset heap cache c1 (fun x hx => hmono cache v (jo, c1) ha x hx)
    obtain ⟨b, hb⟩ := ih c1 (Nat.lt_of_le_of_lt hle hlt)
    obtain ⟨fs, c2⟩ := b
    cases jo with
    | some j => exact ⟨((k, j) :: fs, c2), by simp only [serFieldsGo, ha, hb]⟩
    | none => exact ⟨(fs, c2), by simp only [serFieldsGo, ha, hb]⟩

/-- Element serialization succeeds under the same conditions. -/
theorem serElemsGo_suff (heap : Heap) (n : Nat)
    (f : List Nat → JsVal → Option (Option Json × List Nat))
    (hmono : ∀ cache v r, f cache v = some r → ∀ x, x ∈ cache → x ∈ r.2)
    (hsuf : ∀ cache v, unvisited heap cache < n → ∃ r, f cache v = some r) :
    ∀ cache l, unvisited heap cache < n → ∃ r, serElemsGo f cache l = some r := by
  intro cache l
  induction l generalizing cache with
  | nil => intro _; exact ⟨([], cache), by simp only [serElemsGo]⟩
  | cons v rest ih =>
    intro hlt
    obtain ⟨a, ha⟩ := hsuf cache v hlt
    obtain ⟨jo, c1⟩ := a
    have hle : unvisited heap c1 ≤ unvisited heap cache :=
      unvisited_le_of_subset heap cache c1 (fun x hx => hmono cache v (jo, c1) ha x hx)
    obtain ⟨b, hb⟩ := ih c1 (Nat.lt_of_le_of_lt hle hlt)
    obtain ⟨js, c2⟩ := b
    exact ⟨((jo.getD .jnull) :: js, c2),
      by simp only [serElemsGo, ha, hb]⟩

/-- The value serializer succeeds whenever the fuel exceeds the number of
unvisited heap ids: this is the termination of the unbounded JS recursion,
the cache preventing any repeated descent. -/
theorem serValSuff (heap : Heap) : ∀ (fuel : Nat) (cache : List Nat) (v : JsVal),
    unvisited heap cache < fuel → ∃ r, serVal heap fuel cache v = some r := by
  intro fuel
  induction fuel with
  | zero => intro cache v hlt; exact absurd hlt (Nat.not_lt_zero _)
  | succ fuel ih =>
    intro cache v hlt
    cases v with
    | vundefined => exact ⟨(none, cache), by simp only [serVal]⟩
    | vnull => exact ⟨(some .jnull, cache), by simp only [serVal]⟩
    | vbool b => exact ⟨(some (.jbool b), cache), by simp only [serVal]⟩
    | vnum n => exact ⟨(some (.jnum n), cache), by simp only [serVal]⟩
    | vstr s => exact ⟨(some (.jstr s), cache), by simp only [serVal]⟩
    | vcaller c => exact ⟨(some (encodeCaller c), cache), by simp only [serVal]⟩
    | vref id =>
      by_cases hid : id ∈ cache
      · exact ⟨(some (.jstr circularMarker), cache), by simp only [serVal, if_pos hid]⟩
      · cases hobj : heap[id]? with
        | none => exact ⟨(some .jnull, cache), by simp only [serVal, if_neg hid, hobj]⟩
        | some o =>
          have hlen : id < heap.length := by
            cases Nat.lt_or_ge id heap.length with
            | inl h2 => exact h2
            | inr h2 =>
              rw [List.getElem?_eq_none h2] at hobj
              exact Option.noConfusion hobj
          have hlt2 : unvisited heap (cache ++ [id]) < fuel := by
            have := unvisited_append_lt heap cache id hlen hid
            omega
          cases o with
          | obj fs =>
            obtain ⟨a, ha⟩ :=
              serFieldsGo_suff heap fuel (serVal heap fuel) (serValMono heap fuel)
                (fun c v2 hc => ih c v2 hc) (cache ++ [id]) fs hlt2
            exact ⟨(some (.jobj a.1), a.2),
              by simp only [serVal, if_neg hid, hobj, ha, Option.map_some']⟩
          | arr es =>
            obtain ⟨a, ha⟩ :=
              serElemsGo_suff heap fuel (serVal heap fuel) (serValMono heap fuel)
                (fun c v2 hc => ih c v2 hc) (cache ++ [id]) es hlt2
            exact ⟨(some (.jarr a.1), a.2),
              by simp only [serVal, if_neg hid, hobj, ha, Option.map_some']⟩

/-- Serializing any field list from an empty cache with fuel
`heap.length + 1` succeeds: the entry-point configuration of
`stringifyMessage` can never exhaust its fuel. -/
theorem serFields_total (heap : Heap) (l : List (String × JsVal)) :
    ∃ r, serFields heap (heap.length + 1) [] l = some r := by
  apply serFieldsGo_suff heap (heap.length + 1) (serVal heap (heap.length + 1))
    (serValMono heap (heap.length + 1))
  · intro cache v hc
    exact serValSuff heap (heap.length + 1) cache v hc
  · exact Nat.lt_succ_of_le (unvisited_le_length heap [])


/-! ## C6: cycle-guarded JSON rendering terminates -/

/-- A heap whose first object refers to itself, plus an empty array. -/
def c6Heap : Heap := [JsObj.obj [("self", .vref 0)], JsObj.arr []]

/-- A record whose meta is the self-referential object of `c6Heap`. -/
def c6Log : Log :=
  { name := none, formats := [.fstr "json"], pipes := [], meta := .vref 0,
    level := "warn", args := .vref 1, callerLevel := 0, caller := none, date := 7 }

/-- C6: rendering the `json` specifier terminates on EVERY heap and
record — cyclic structures included — because the replacer's cache
bounds the recursion depth by the heap size, so the serializer's fuel
`heap.length + 1` can never be exhausted; and on a record whose meta is
directly self-referential the cyclic path is replaced in the output by
the fixed `[circular]` marker. -/
theorem C6_json_cycle_guard :
    (∀ (heap : Heap) (log : Log), ∃ s, stringifyMessage heap log = some s) ∧
    Log.messages c6Heap 0 c6Log =
      .ok [.str "\x7b\"args\":[],\"caller\":null,\"date\":7,\"level\":\"warn\",\"meta\":\x7b\"self\":\"[circular]\"\x7d\x7d"] := by
  constructor
  · intro heap log
    obtain ⟨r, hr⟩ := serFields_total heap (msgFields log.toMessage)
    exact ⟨Json.render (.jobj r.1),
      by simp only [stringifyMessage, hr, Option.map_some']⟩
  · rfl

/-! ## C10: repeated references are marked even without a cycle -/

/-- A cached reference serializes to the marker and membership of the id
in the returned cache, for a valid heap id. -/
theorem serVal_ref_mem (heap : Heap) (fuel : Nat) (cache : List Nat) (o : Nat)
    (r : Option Json × List Nat) (ho : o < heap.length)
    (h : serVal heap fuel cache (.vref o) = some r) : o ∈ r.2 := by
  by_cases hid : o ∈ cache
  · cases fuel with
    | zero =>
      simp only [serVal, if_pos hid] at h
      cases h
      exact hid
    | succ fuel =>
      simp only [serVal, if_pos hid] at h
      cases h
      exact hid
  · cases hobj : heap[o]? with
    | none =>
      rw [List.getElem?_eq_none_iff] at hobj
      omega
    | some ob =>
      cases fuel with
      | zero =>
        simp only [serVal, if_neg hid, hobj] at h
        cases ob with
        | obj fs => exact Option.noConfusion h
        | arr es => exact Option.noConfusion h
      | succ fuel =>
        simp only [serVal, if_neg hid, hobj] at h
        cases ob with
        | obj fs =>
          rcases Option.map_eq_some'.mp h with ⟨a, ha, hfr⟩
          subst hfr
          exact serFieldsGo_mono _ (serValMono heap fuel) _ _ _ ha o (by simp)
        | arr es =>
          rcases Option.map_eq_some'.mp h with ⟨a, ha, hfr⟩
          subst hfr
          exact serElemsGo_mono _ (serValMono heap fuel) _ _ _ ha o (by simp)

/-- Once an id is in the cache, any later field referencing it emits the
marker: the marked pair is in the output field list. -/
theorem serFieldsGo_marked (heap : Heap) (fuel : Nat) (o : Nat) (k2 : String) :
    ∀ (l2 l3 : List (String × JsVal)) (cache : List Nat)
      (r : List (String × Json) × List Nat),
      o ∈ cache →
      serFieldsGo (serVal heap fuel) cache (l2 ++ (k2, .vref o) :: l3) = some r →
      (k2, Json.jstr circularMarker) ∈ r.1 := by
  intro l2
  induction l2 with
  | nil =>
    intro l3 cache r hmem h
    simp only [List.nil_append, serFieldsGo, List.append_eq] at h
    have hv : serVal heap fuel cache (.vref o) =
        some (some (.jstr circularMarker), cache) := by
      cases fuel with
      | zero => simp only [serVal, if_pos hmem]
      | succ fuel => simp only [serVal, if_pos hmem]
    rw [hv] at h
    dsimp only at h
    cases hr : serFieldsGo (serVal heap fuel) cache l3 with
    | none => rw [hr] at h; exact Option.noConfusion h
    | some b =>
      rw [hr] at h
      obtain ⟨fs, c2⟩ := b
      dsimp only at h
      cases h
      exact List.mem_cons_self _ _
  | cons kv t ih =>
    intro l3 cache r hmem h
    obtain ⟨k, v⟩ := kv
    simp only [List.cons_append, serFieldsGo, List.append_eq] at h
    cases hv : serVal heap fuel cache v with
    | none => rw [hv] at h; exact Option.noConfusion h
    | some a =>
      rw [hv] at h
      obtain ⟨jo, c1⟩ := a
      dsimp only at h
      cases hr : serFieldsGo (serVal heap fuel) c1 (t ++ (k2, .vref o) :: l3) with
      | none => rw [hr] at h; exact Option.noConfusion h
      | some b =>
        rw [hr] at h
        obtain ⟨fs, c2⟩ := b
        dsimp only at h
        cases h
        have hmem1 : o ∈ c1 := serValMono heap fuel cache v (jo, c1) hv o hmem
        have hin := ih l3 c1 (fs, c2) hmem1 hr
        cases jo with
        | some j => exact List.mem_cons_of_mem _ hin
        | none => exact hin

/-- C10: during `json` serialization of an object field list, a field
that references a heap object already referenced by an EARLIER field —
shared, not necessarily cyclic — is replaced by the `[circular]` marker:
the marked pair appears in the output. -/
theorem C10_repeated_ref_marker (heap : Heap) (fuel : Nat) (cache : List Nat)
    (l1 l2 l3 : List (String × JsVal)) (k1 k2 : String) (o : Nat)
    (r : List (String × Json) × List Nat) (ho : o < heap.length)
    (h : serFieldsGo (serVal heap fuel) cache
        (l1 ++ (k1, .vref o) :: l2 ++ (k2, .vref o) :: l3) = some r) :
    (k2, Json.jstr circularMarker) ∈ r.1 := by
  induction l1 generalizing cache r with
  | nil =>
    simp only [List.nil_append, serFieldsGo, List.append_eq] at h
    cases hv : serVal heap fuel cache (.vref o) with
    | none => rw [hv] at h; exact Option.noConfusion h
    | some a =>
      rw [hv] at h
      obtain ⟨jo, c1⟩ := a
      dsimp only at h
      cases hr : serFieldsGo (serVal heap fuel) c1 (l2 ++ (k2, .vref o) :: l3) with
      | none => rw [hr] at h; exact Option.noConfusion h
      | some b =>
        rw [hr] at h
        obtain ⟨fs, c2⟩ := b
        dsimp only at h
        cases h
        have ho1 : o ∈ c1 := serVal_ref_mem heap fuel cache o (jo, c1) ho hv
        have hin := serFieldsGo_marked heap fuel o k2 l2 l3 c1 (fs, c2) ho1 hr
        cases jo with
        | some j => exact List.mem_cons_of_mem _ hin
        | none => exact hin
  | cons kv t ih =>
    obtain ⟨k, v⟩ := kv
    simp only [List.cons_append, serFieldsGo, List.append_eq] at h
    cases hv : serVal heap fuel cache v with
    | none => rw [hv] at h; exact Option.noConfusion h
    | some a =>
      rw [hv] at h
      obtain ⟨jo, c1⟩ := a
      dsimp only at h
      cases hr : serFieldsGo (serVal heap fuel) c1
          (t ++ (k1, .vref o) :: l2 ++ (k2, .vref o) :: l3) with
      | none => rw [hr] at h; exact Option.noConfusion h
      | some b =>
        rw [hr] at h
        obtain ⟨fs, c2⟩ := b
        dsimp only at h
        cases h
        have hin := ih c1 (fs, c2) hr
        cases jo with
        | some j => exact List.mem_cons_of_mem _ hin
        | none => exact hin

/-- One empty heap object, shared by two fields. -/
def c10Heap : Heap := [JsObj.obj []]

/-- C10 witness: serializing `\x7b a: o, b: o \x7d` over `c10Heap` — an
acyclic value with mere sharing — renders the second occurrence as the
marker. -/
theorem C10_repeated_ref_marker_witness :
    serFieldsGo (serVal c10Heap 2) [] [("a", .vref 0), ("b", .vref 0)] =
      some ([("a", .jobj []), ("b", .jstr circularMarker)], [0]) ∧
    ("b", Json.jstr circularMarker) ∈
      [("a", Json.jobj []), ("b", Json.jstr circularMarker)] :=
  ⟨rfl,
    C10_repeated_ref_marker c10Heap 2 [] [] [] [] "a" "b" 0
      ([("a", .jobj []), ("b", .jstr circularMarker)], [0]) (by decide) rfl⟩


/-! ## C7: the spec's plain JSON encoding, and agreement without sharing -/

/-- Plain field encoding with child encoder `f`: the encoded fields
(`undefined` omitted) plus the concatenation of the visit lists. -/
def plainFieldsGo (f : JsVal → Option (Option Json × List Nat)) :
    List (String × JsVal) → Option (List (String × Json) × List Nat)
  | [] => some ([], [])
  | (k, v) :: rest =>
    match f v with
    | none => none
    | some (jo, l1) =>
      match plainFieldsGo f rest with
      | none => none
      | some (fs, l2) =>
        some ((match jo with | some j => (k, j) :: fs | none => fs), l1 ++ l2)

/-- Plain element encoding with child encoder `f`; `undefined` becomes
`null`. -/
def plainElemsGo (f : JsVal → Option (Option Json × List Nat)) :
    List JsVal → Option (List Json × List Nat)
  | [] => some ([], [])
  | v :: rest =>
    match f v with
    | none => none
    | some (jo, l1) =>
      match plainElemsGo f rest with
      | none => none
      | some (js, l2) => some ((jo.getD .jnull) :: js, l1 ++ l2)

/-- Modelled from the spec: the plain, cycle-free JSON encoding of a
value ("Numeric/string/boolean encoding follows standard JSON rules;
absent (undefined) fields are omitted per standard JSON semantics"), with
no visited-cache.  This is the reference semantics the testable property
of section 8 ("decoded form's fields equal the Record's corresponding
fields") describes; C7 compares the code's cycle-guarded serializer
against it.  It returns the encoding together with the list of heap ids
visited, in descent order (an id once per descent, so a shared reference
appears twice). -/
def plainVal (heap : Heap) : Nat → JsVal → Option (Option Json × List Nat)
  | 0, v =>
    match v with
    | .vundefined => some (none, [])
    | .vnull => some (some .jnull, [])
    | .vbool b => some (some (.jbool b), [])
    | .vnum n => some (some (.jnum n), [])
    | .vstr s => some (some (.jstr s), [])
    | .vcaller c => some (some (encodeCaller c), [])
    | .vref id =>
      match heap[id]? with
      | none => some (some .jnull, [])
      | some _ => none
  | fuel + 1, v =>
    match v with
    | .vundefined => some (none, [])
    | .vnull => some (some .jnull, [])
    | .vbool b => some (some (.jbool b), [])
    | .vnum n => some (some (.jnum n), [])
    | .vstr s => some (some (.jstr s), [])
    | .vcaller c => some (some (encodeCaller c), [])
    | .vref id =>
      match heap[id]? with
      | none => some (some .jnull, [])
      | some (.obj fs) =>
        (plainFieldsGo (plainVal heap fuel) fs).map
          (fun r => (some (.jobj r.1), id :: r.2))
      | some (.arr es) =>
        (plainElemsGo (plainVal heap fuel) es).map
          (fun r => (some (.jarr r.1), id :: r.2))

/-- Every id visited by plain field encoding is a valid heap id, given
the same for the child encoder. -/
theorem plainFieldsGo_valid (heap : Heap)
    (f : JsVal → Option (Option Json × List Nat))
    (hf : ∀ v r, f v = some r → ∀ x, x ∈ r.2 → x < heap.length) :
    ∀ l r, plainFieldsGo f l = some r → ∀ x, x ∈ r.2 → x < heap.length := by
  intro l
  induction l with
  | nil =>
    intro r h x hx
    simp only [plainFieldsGo] at h
    cases h
    cases hx
  | cons kv rest ih =>
    intro r h x hx
    obtain ⟨k, v⟩ := kv
    simp only [plainFieldsGo] at h
    cases hv : f v with
    | none => rw [hv] at h; exact Option.noConfusion h
    | some a =>
      rw [hv] at h
      obtain ⟨jo, l1⟩ := a
      dsimp only at h
      cases hr : plainFieldsGo f rest with
      | none => rw [hr] at h; exact Option.noConfusion h
      | some b =>
        rw [hr] at h
        obtain ⟨fs, l2⟩ := b
        dsimp only at h
        cases h
        rcases List.mem_append.mp hx with h1 | h2
        · exact hf v (jo, l1) hv x h1
        · exact ih (fs, l2) hr x h2

/-- Every id visited by plain element encoding is a valid heap id. -/
theorem plainElemsGo_valid (heap : Heap)
    (f : JsVal → Option (Option Json × List Nat))
    (hf : ∀ v r, f v = some r → ∀ x, x ∈ r.2 → x < heap.length) :
    ∀ l r, plainElemsGo f l = some r → ∀ x, x ∈ r.2 → x < heap.length := by
  intro l
  induction l with
  | nil =>
    intro r h x hx
    simp only [plainElemsGo] at h
    cases h
    cases hx
  | cons v rest ih =>
    intro r h x hx
    simp only [plainElemsGo] at h
    cases hv : f v with
    | none => rw [hv] at h; exact Option.noConfusion h
    | some a =>
      rw [hv] at h
      obtain ⟨jo, l1⟩ := a
      dsimp only at h
      cases hr : plainElemsGo f rest with
      | none => rw [hr] at h; exact Option.noConfusion h
      | some b =>
        rw [hr] at h
        obtain ⟨js, l2⟩ := b
        dsimp only at h
        cases h
        rcases List.mem_append.mp hx with h1 | h2
        · exact hf v (jo, l1) hv x h1
        · exact ih (js, l2) hr x h2

/-- Every id visited by the plain encoder is a valid heap id. -/
theorem plainVal_valid (heap : Heap) : ∀ (fuel : Nat) (v : JsVal) r,
    plainVal heap fuel v = some r → ∀ x, x ∈ r.2 → x < heap.length := by
  intro fuel
  induction fuel with
  | zero =>
    intro v r h x hx
    cases v <;> simp only [plainVal] at h
    case vundefined => cases h; cases hx
    case vnull => cases h; cases hx
    case vbool b => cases h; cases hx
    case vnum n => cases h; cases hx
    case vstr s => cases h; cases hx
    case vcaller c => cases h; cases hx
    case vref id =>
      cases hobj : heap[id]? with
      | none => rw [hobj] at h; cases h; cases hx
      | some o => rw [hobj] at h; cases o <;> exact Option.noConfusion h
  | succ fuel ih =>
    intro v r h x hx
    cases v <;> simp only [plainVal] at h
    case vundefined => cases h; cases hx
    case vnull => cases h; cases hx
    case vbool b => cases h; cases hx
    case vnum n => cases h; cases hx
    case vstr s => cases h; cases hx
    case vcaller c => cases h; cases hx
    case vref id =>
      cases hobj : heap[id]? with
      | none => rw [hobj] at h; cases h; cases hx
      | some o =>
        rw [hobj] at h
        have hlen : id < heap.length := by
          cases Nat.lt_or_ge id heap.length with
          | inl h2 => exact h2
          | inr h2 =>
            rw [List.getElem?_eq_none h2] at hobj
            exact Option.noConfusion hobj
        cases o with
        | obj fs =>
          rcases Option.map_eq_some'.mp h with ⟨a, ha, hfr⟩
          subst hfr
          rcases List.mem_cons.mp hx with h1 | h2
          · rw [h1]; exact hlen
          · exact plainFieldsGo_valid heap (plainVal heap fuel) ih fs a ha x h2
        | arr es =>
          rcases Option.map_eq_some'.mp h with ⟨a, ha, hfr⟩
          subst hfr
          rcases List.mem_cons.mp hx with h1 | h2
          · rw [h1]; exact hlen
          · exact plainElemsGo_valid heap (plainVal heap fuel) ih es a ha x h2


/-- When the plain encoding of a field list visits pairwise-distinct ids,
none of which is cached, the guarded serializer produces exactly the
plain encoding (and appends the visits to the cache). -/
theorem plainFieldsGo_agree (heap : Heap)
    (f : JsVal → Option (Option Json × List Nat))
    (g : List Nat → JsVal → Option (Option Json × List Nat))
    (hval : ∀ v r, f v = some r → ∀ x, x ∈ r.2 → x < heap.length)
    (hagree : ∀ (v : JsVal) (r : Option Json × List Nat) (cache : List Nat),
      f v = some r → r.2.Nodup → (∀ x, x ∈ r.2 → x ∉ cache) →
      (∀ x, x ∈ cache → x < heap.length) → g cache v = some (r.1, cache ++ r.2)) :
    ∀ (l : List (String × JsVal)) (r : List (String × Json) × List Nat)
      (cache : List Nat),
      plainFieldsGo f l = some r → r.2.Nodup → (∀ x, x ∈ r.2 → x ∉ cache) →
      (∀ x, x ∈ cache → x < heap.length) →
      serFieldsGo g cache l = some (r.1, cache ++ r.2) := by
  intro l
  induction l with
  | nil =>
    intro r cache h hnd hdis hcv
    simp only [plainFieldsGo] at h
    cases h
    simp only [serFieldsGo, List.append_nil]
  | cons kv rest ih =>
    intro r cache h hnd hdis hcv
    obtain ⟨k, v⟩ := kv
    simp only [plainFieldsGo] at h
    cases hv : f v with
    | none => rw [hv] at h; exact Option.noConfusion h
    | some a =>
      rw [hv] at h
      obtain ⟨jo, l1⟩ := a
      dsimp only at h
      cases hr : plainFieldsGo f rest with
      | none => rw [hr] at h; exact Option.noConfusion h
      | some b =>
        rw [hr] at h
        obtain ⟨fs, l2⟩ := b
        dsimp only at h
        cases h
        have hnd1 : l1.Nodup := (List.nodup_append.mp hnd).1
        have hnd2 : l2.Nodup := (List.nodup_append.mp hnd).2.1
        have hdj : l1.Disjoint l2 := (List.nodup_append.mp hnd).2.2
        have hg1 : g cache v = some (jo, cache ++ l1) :=
          hagree v (jo, l1) cache hv hnd1
            (fun x hx => hdis x (List.mem_append_left _ hx)) hcv
        have hcv1 : ∀ x, x ∈ cache ++ l1 → x < heap.length := by
          intro x hx
          rcases List.mem_append.mp hx with h1 | h2
          · exact hcv x h1
          · exact hval v (jo, l1) hv x h2
        have hdis1 : ∀ x, x ∈ l2 → x ∉ cache ++ l1 := by
          intro x hx hmem
          rcases List.mem_append.mp hmem with h1 | h2
          · exact hdis x (List.mem_append_right _ hx) h1
          · exact hdj h2 hx
        have hg2 := ih (fs, l2) (cache ++ l1) hr hnd2 hdis1 hcv1
        simp only [serFieldsGo, hg1, hg2, List.append_assoc]

/-- Element-list version of the agreement. -/
theorem plainElemsGo_agree (heap : Heap)
    (f : JsVal → Option (Option Json × List Nat))
    (g : List Nat → JsVal → Option (Option Json × List Nat))
    (hval : ∀ v r, f v = some r → ∀ x, x ∈ r.2 → x < heap.length)
    (hagree : ∀ (v : JsVal) (r : Option Json × List Nat) (cache : List Nat),
      f v = some r → r.2.Nodup → (∀ x, x ∈ r.2 → x ∉ cache) →
      (∀ x, x ∈ cache → x < heap.length) → g cache v = some (r.1, cache ++ r.2)) :
    ∀ (l : List JsVal) (r : List Json × List Nat) (cache : List Nat),
      plainElemsGo f l = some r → r.2.Nodup → (∀ x, x ∈ r.2 → x ∉ cache) →
      (∀ x, x ∈ cache → x < heap.length) →
      serElemsGo g cache l = some (r.1, cache ++ r.2) := by
  intro l
  induction l with
  | nil =>
    intro r cache h hnd hdis hcv
    simp only [plainElemsGo] at h
    cases h
    simp only [serElemsGo, List.append_nil]
  | cons v rest ih =>
    intro r cache h hnd hdis hcv
    simp only [plainElemsGo] at h
    cases hv : f v with
    | none => rw [hv] at h; exact Option.noConfusion h
    | some a =>
      rw [hv] at h
      obtain ⟨jo, l1⟩ := a
      dsimp only at h
      cases hr : plainElemsGo f rest with
      | none => rw [hr] at h; exact Option.noConfusion h
      | some b =>
        rw [hr] at h
        obtain ⟨js, l2⟩ := b
        dsimp only at h
        cases h
        have hnd1 : l1.Nodup := (List.nodup_append.mp hnd).1
        have hnd2 : l2.Nodup := (List.nodup_append.mp hnd).2.1
        have hdj : l1.Disjoint l2 := (List.nodup_append.mp hnd).2.2
        have hg1 : g cache v = some (jo, cache ++ l1) :=
          hagree v (jo, l1) cache hv hnd1
            (fun x hx => hdis x (List.mem_append_left _ hx)) hcv
        have hcv1 : ∀ x, x ∈ cache ++ l1 → x < heap.length := by
          intro x hx
          rcases List.mem_append.mp hx with h1 | h2
          · exact hcv x h1
          · exact hval v (jo, l1) hv x h2
        have hdis1 : ∀ x, x ∈ l2 → x ∉ cache ++ l1 := by
          intro x hx hmem
          rcases List.mem_append.mp hmem with h1 | h2
          · exact hdis x (List.mem_append_right _ hx) h1
          · exact hdj h2 hx
        have hg2 := ih (js, l2) (cache ++ l1) hr hnd2 hdis1 hcv1
        simp only [serElemsGo, hg1, hg2, List.append_assoc]

/-- When the plain encoding of a value visits pairwise-distinct ids, none
of which is cached (and the cache holds only valid ids, as it always
does), the guarded serializer agrees with the plain encoding: without
shared references the cycle guard is invisible. -/
theorem plainVal_agree (heap : Heap) : ∀ (fuel : Nat) (v : JsVal)
    (r : Option Json × List Nat) (cache : List Nat),
    plainVal heap fuel v = some r → r.2.Nodup → (∀ x, x ∈ r.2 → x ∉ cache) →
    (∀ x, x ∈ cache → x < heap.length) →
    serVal heap fuel cache v = some (r.1, cache ++ r.2) := by
  intro fuel
  induction fuel with
  | zero =>
    intro v r cache h hnd hdis hcv
    cases v <;> simp only [plainVal] at h
    case vundefined => cases h; simp only [serVal, List.append_nil]
    case vnull => cases h; simp only [serVal, List.append_nil]
    case vbool b => cases h; simp only [serVal, List.append_nil]
    case vnum n => cases h; simp only [serVal, List.append_nil]
    case vstr s => cases h; simp only [serVal, List.append_nil]
    case vcaller c => cases h; simp only [serVal, List.append_nil]
    case vref id =>
      cases hobj : heap[id]? with
      | none =>
        rw [hobj] at h
        cases h
        have hid : id ∉ cache := by
          intro hmem
          have := hcv id hmem
          rw [List.getElem?_eq_none_iff] at hobj
          omega
        simp only [serVal, if_neg hid, hobj, List.append_nil]
      | some o => rw [hobj] at h; cases o <;> exact Option.noConfusion h
  | succ fuel ih =>
    intro v r cache h hnd hdis hcv
    cases v <;> simp only [plainVal] at h
    case vundefined => cases h; simp only [serVal, List.append_nil]
    case vnull => cases h; simp only [serVal, List.append_nil]
    case vbool b => cases h; simp only [serVal, List.append_nil]
    case vnum n => cases h; simp only [serVal, List.append_nil]
    case vstr s => cases h; simp only [serVal, List.append_nil]
    case vcaller c => cases h; simp only [serVal, List.append_nil]
    case vref id =>
      cases hobj : heap[id]? with
      | none =>
        rw [hobj] at h
        cases h
        have hid : id ∉ cache := by
          intro hmem
          have := hcv id hmem
          rw [List.getElem?_eq_none_iff] at hobj
          omega
        simp only [serVal, if_neg hid, hobj, List.append_nil]
      | some o =>
        rw [hobj] at h
        have hlen : id < heap.length := by
          cases Nat.lt_or_ge id heap.length with
          | inl h2 => exact h2
          | inr h2 =>
            rw [List.getElem?_eq_none h2] at hobj
            exact Option.noConfusion hobj
        cases o with
        | obj fs =>
          rcases Option.map_eq_some'.mp h with ⟨a, ha, hfr⟩
          subst hfr
          have hidnd : id ∉ a.2 := (List.nodup_cons.mp hnd).1
          have hnd2 : a.2.Nodup := (List.nodup_cons.mp hnd).2
          have hid : id ∉ cache := hdis id (List.mem_cons_self _ _)
          have hcv1 : ∀ x, x ∈ cache ++ [id] → x < heap.length := by
            intro x hx
            rcases List.mem_append.mp hx with h1 | h2
            · exact hcv x h1
            · rw [List.mem_singleton.mp h2]; exact hlen
          have hdis1 : ∀ x, x ∈ a.2 → x ∉ cache ++ [id] := by
            intro x hx hmem
            rcases List.mem_append.mp hmem with h1 | h2
            · exact hdis x (List.mem_cons_of_mem _ hx) h1
            · rw [List.mem_singleton.mp h2] at hx; exact hidnd hx
          obtain ⟨a1, a2⟩ := a
          have hgo := plainFieldsGo_agree heap (plainVal heap fuel)
            (serVal heap fuel) (plainVal_valid heap fuel)
            (fun v2 r2 c2 hv2 hnd2b hdis2 hcv2 => ih v2 r2 c2 hv2 hnd2b hdis2 hcv2)
            fs (a1, a2) (cache ++ [id]) ha hnd2 hdis1 hcv1
          simp only [serVal, if_neg hid, hobj, hgo, Option.map_some',
            List.append_assoc, List.singleton_append]
        | arr es =>
          rcases Option.map_eq_some'.mp h with ⟨a, ha, hfr⟩
          subst hfr
          have hidnd : id ∉ a.2 := (List.nodup_cons.mp hnd).1
          have hnd2 : a.2.Nodup := (List.nodup_cons.mp hnd).2
          have hid : id ∉ cache := hdis id (List.mem_cons_self _ _)
          have hcv1 : ∀ x, x ∈ cache ++ [id] → x < heap.length := by
            intro x hx
            rcases List.mem_append.mp hx with h1 | h2
            · exact hcv x h1
            · rw [List.mem_singleton.mp h2]; exact hlen
          have hdis1 : ∀ x, x ∈ a.2 → x ∉ cache ++ [id] := by
            intro x hx hmem
            rcases List.mem_append.mp hmem with h1 | h2
            · exact hdis x (List.mem_cons_of_mem _ hx) h1
            · rw [List.mem_singleton.mp h2] at hx; exact hidnd hx
          obtain ⟨a1, a2⟩ := a
          have hgo := plainElemsGo_agree heap (plainVal heap fuel)
            (serVal heap fuel) (plainVal_valid heap fuel)
            (fun v2 r2 c2 hv2 hnd2b hdis2 hcv2 => ih v2 r2 c2 hv2 hnd2b hdis2 hcv2)
            es (a1, a2) (cache ++ [id]) ha hnd2 hdis1 hcv1
          simp only [serVal, if_neg hid, hobj, hgo, Option.map_some',
            List.append_assoc, List.singleton_append]


/-- Singleton field list for a present value, empty for an omitted one. -/
def jfield (k : String) : Option Json → List (String × Json)
  | some j => [(k, j)]
  | none => []

/-- The JSON form of the record's `caller` field (`null` or the encoded
`Caller` instance). -/
def callerJson : Option Caller → Json
  | some c => encodeCaller c
  | none => .jnull

/-- Plain encoding of a number value. -/
theorem plainVal_vnum (heap : Heap) (fuel : Nat) (n : Int) :
    plainVal heap (fuel + 1) (.vnum n) = some (some (.jnum n), []) := by
  simp only [plainVal]

/-- Plain encoding of a string value. -/
theorem plainVal_vstr (heap : Heap) (fuel : Nat) (s : String) :
    plainVal heap (fuel + 1) (.vstr s) = some (some (.jstr s), []) := by
  simp only [plainVal]

/-- Plain encoding of the message's `caller` component. -/
theorem plainVal_caller (heap : Heap) (fuel : Nat) (c : Option Caller) :
    plainVal heap (fuel + 1)
      (match c with | some c2 => JsVal.vcaller c2 | none => JsVal.vnull) =
      some (some (callerJson c), []) := by
  cases c <;> simp [plainVal, callerJson]

/-- Plain encoding of the message's `name` component: omitted when the
record has no logger name. -/
theorem plainVal_name (heap : Heap) (fuel : Nat) (n : Option String) :
    plainVal heap (fuel + 1)
      (match n with | some s => JsVal.vstr s | none => JsVal.vundefined) =
      some (n.map Json.jstr, []) := by
  cases n <;> simp [plainVal]

/-- A heap with one empty object shared under two meta keys, plus an
empty args array: acyclic, but with a repeated reference. -/
def c7Heap : Heap :=
  [JsObj.obj [], JsObj.obj [("a", .vref 0), ("b", .vref 0)], JsObj.arr []]

/-- A record over `c7Heap` whose meta is the sharing object. -/
def c7Log : Log :=
  { name := some "app", formats := [.fstr "json"], pipes := [], meta := .vref 1,
    level := "info", args := .vref 2, callerLevel := 0, caller := none, date := 5 }

/-- C7 counterexample: `c7Log`'s meta is ACYCLIC (its plain encoding
succeeds, the visit list `[1, 0, 0]` merely showing the shared id), yet
the `json` output renders `meta.b` as the `[circular]` marker instead of
the record's meta value: the decoded `meta` field differs from the
record's field, refuting the claim for acyclic-but-shared records. -/
theorem C7_counterexample :
    plainVal c7Heap 4 (.vref 1) =
      some (some (.jobj [("a", .jobj []), ("b", .jobj [])]), [1, 0, 0]) ∧
    (serFields c7Heap (c7Heap.length + 1) [] (msgFields c7Log.toMessage)).map
        (fun r => List.lookup "meta" r.1) =
      some (some (.jobj [("a", .jobj []), ("b", .jstr circularMarker)])) ∧
    Log.messages c7Heap 0 c7Log =
      .ok [.str "\x7b\"args\":[],\"caller\":null,\"date\":5,\"level\":\"info\",\"meta\":\x7b\"a\":\x7b\x7d,\"b\":\"[circular]\"\x7d,\"name\":\"app\"\x7d"] ∧
    Json.jstr circularMarker ≠ Json.jobj [] := by
  refine ⟨rfl, rfl, rfl, fun h => Json.noConfusion h⟩

/-- C7 (amended): for every record with `formats = ["json"]` whose
message graph is acyclic AND free of shared references — the plain
(spec) encoding succeeds with pairwise-distinct visited ids — `messages`
produces exactly the rendered plain encoding: a JSON object whose
`caller` and `date` and `level` fields are the record's values, whose
`args` and `meta` fields are the plain encodings of the record's `args`
and `meta`, and whose `name` field is the record's name (omitted, like
any `undefined` field, when absent). -/
theorem C7_json_roundtrip_unshared (heap : Heap) (width : Nat) (log : Log)
    (out : List (String × Json)) (vis : List Nat)
    (hplain : plainFieldsGo (plainVal heap (heap.length + 1))
      (msgFields log.toMessage) = some (out, vis))
    (hnodup : vis.Nodup)
    (hfmt : log.formats = [.fstr "json"]) :
    Log.messages heap width log = .ok [.str (Json.render (.jobj out))] ∧
    ∃ ja jm : Option Json × List Nat,
      plainVal heap (heap.length + 1) log.args = some ja ∧
      plainVal heap (heap.length + 1) log.meta = some jm ∧
      out = jfield "args" ja.1 ++
        ("caller", callerJson log.caller) :: ("date", .jnum log.date) ::
        ("level", .jstr log.level) ::
        (jfield "meta" jm.1 ++ jfield "name" (log.name.map .jstr)) := by
  constructor
  · have hser := plainFieldsGo_agree heap (plainVal heap (heap.length + 1))
      (serVal heap (heap.length + 1)) (plainVal_valid heap (heap.length + 1))
      (fun v2 r2 c2 h2 h3 h4 h5 =>
        plainVal_agree heap (heap.length + 1) v2 r2 c2 h2 h3 h4 h5)
      (msgFields log.toMessage) (out, vis) [] hplain hnodup
      (fun x _ hx => List.not_mem_nil x hx)
      (fun x hx => absurd hx (List.not_mem_nil x))
    have hstr : stringifyMessage heap log = some (Json.render (.jobj out)) := by
      unfold stringifyMessage serFields
      rw [hser]
      rfl
    have hrf : renderFormat heap width log (.fstr "json") =
        .ok (.str (Json.render (.jobj out))) := by
      unfold renderFormat
      dsimp only
      rw [if_pos rfl, hstr]
      rfl
    simp only [Log.messages, hfmt, renderAll, hrf]
  · have hm : msgFields log.toMessage =
        [("args", log.args),
         ("caller", match log.caller with
           | some c => JsVal.vcaller c
           | none => JsVal.vnull),
         ("date", JsVal.vnum log.date), ("level", JsVal.vstr log.level),
         ("meta", log.meta),
         ("name", match log.name with
           | some s => JsVal.vstr s
           | none => JsVal.vundefined)] := rfl
    rw [hm] at hplain
    cases hja : plainVal heap (heap.length + 1) log.args with
    | none =>
      simp only [plainFieldsGo, hja] at hplain
      exact Option.noConfusion hplain
    | some ja =>
      cases hjm : plainVal heap (heap.length + 1) log.meta with
      | none =>
        simp only [plainFieldsGo, hja, hjm, plainVal_caller, plainVal_vnum,
          plainVal_vstr, plainVal_name] at hplain
        exact Option.noConfusion hplain
      | some jm =>
        refine ⟨ja, jm, rfl, rfl, ?_⟩
        simp only [plainFieldsGo, hja, hjm, plainVal_caller, plainVal_vnum,
          plainVal_vstr, plainVal_name] at hplain
        obtain ⟨ja1, la⟩ := ja
        obtain ⟨jm1, lm⟩ := jm
        injection hplain with h1
        injection h1 with h2 h3
        rw [← h2]
        cases ja1 <;> cases jm1 <;> cases hn : log.name <;> simp [jfield]

/-- A tree-shaped heap: an args array holding `1` and a meta object with
one string field, nothing shared. -/
def c7wHeap : Heap := [JsObj.arr [.vnum 1], JsObj.obj [("k", .vstr "v")]]

/-- A record over `c7wHeap` with `formats = ["json"]`. -/
def c7wLog : Log :=
  { name := some "app", formats := [.fstr "json"], pipes := [], meta := .vref 1,
    level := "info", args := .vref 0, callerLevel := 0, caller := none, date := 5 }

/-- The plain encoding of `c7wLog`'s message. -/
def c7wOut : List (String × Json) :=
  [("args", .jarr [.jnum 1]), ("caller", .jnull), ("date", .jnum 5),
   ("level", .jstr "info"), ("meta", .jobj [("k", .jstr "v")]),
   ("name", .jstr "app")]

/-- C7 witness: the amended roundtrip applied to the tree-shaped
`c7wLog`. -/
theorem C7_json_roundtrip_unshared_witness :
    Log.messages c7wHeap 0 c7wLog = .ok [.str (Json.render (.jobj c7wOut))] ∧
    ∃ ja jm : Option Json × List Nat,
      plainVal c7wHeap (c7wHeap.length + 1) c7wLog.args = some ja ∧
      plainVal c7wHeap (c7wHeap.length + 1) c7wLog.meta = some jm ∧
      c7wOut = jfield "args" ja.1 ++
        ("caller", callerJson c7wLog.caller) :: ("date", .jnum c7wLog.date) ::
        ("level", .jstr c7wLog.level) ::
        (jfield "meta" jm.1 ++ jfield "name" (c7wLog.name.map .jstr)) :=
  C7_json_roundtrip_unshared c7wHeap 0 c7wLog c7wOut [0, 1] rfl (by decide) rfl

end JsLogger
